import Mathlib

/-!
Verification development for the pesde package manager/registry core:
the manifest model (`src/src/manifest.rs`) and the registry's
version/target resolution endpoint
(`src/registry/src/endpoints/package_version.rs`).

Rust values are embedded shallowly: strings become `List Char` (so that
character-level `split` has exact semantics), `BTreeMap` iteration becomes
a key-sorted association list, `Option`/`Result` become `Option`/`Except`.
All build features (`roblox`, `lune`, `luau`) are considered enabled, as
in the released configuration the spec describes.
-/

namespace Pesde

/-- `TargetKind` from `manifest.rs` with every feature enabled.
Declaration order (hence the derived Rust `Ord`): Roblox, Lune, Luau. -/
inductive TargetKind where
  | roblox
  | lune
  | luau
deriving DecidableEq, Repr

/-- Rank of a variant in declaration order; Rust's derived `Ord` on a
fieldless enum compares these ranks. -/
def TargetKind.rank : TargetKind → Nat
  | .roblox => 0
  | .lune => 1
  | .luau => 2

theorem TargetKind.rank_injective : Function.Injective TargetKind.rank := by
  intro a b h
  cases a <;> cases b <;> simp [TargetKind.rank] at h ⊢

instance : LinearOrder TargetKind :=
  LinearOrder.lift' TargetKind.rank TargetKind.rank_injective

/-- `TargetKind::is_compatible_with` from `manifest.rs` lines 66-77:
equal kinds are compatible, plus the single extra pair (Lune, Luau). -/
def TargetKind.is_compatible_with (self dependency : TargetKind) : Bool :=
  if self = dependency then true
  else
    match self, dependency with
    | .lune, .luau => true
    | _, _ => false

/-- `TargetKind::packages_folder` from `manifest.rs` lines 79-85 (the
naming rule only; paths are plain strings here). -/
def TargetKind.packages_folder (self dependency : TargetKind) : String :=
  if self = dependency then "packages"
  else
    (match dependency with
     | .roblox => "roblox"
     | .lune => "lune"
     | .luau => "luau") ++ "_packages"

/-- `Target` from `manifest.rs` lines 88-112; relative paths are embedded
as strings, the `BTreeSet<String>` of build files as a list of strings
(only emptiness is ever inspected). -/
inductive Target where
  | roblox (lib : Option String) (build_files : List String)
  | lune (lib : Option String) (bin : Option String)
  | luau (lib : Option String) (bin : Option String)
deriving DecidableEq, Repr

/-- `Target::kind` from `manifest.rs` lines 115-124. -/
def Target.kind : Target → TargetKind
  | .roblox _ _ => .roblox
  | .lune _ _ => .lune
  | .luau _ _ => .luau

/-- `Target::lib_path` from `manifest.rs` lines 126-135. -/
def Target.lib_path : Target → Option String
  | .roblox lib _ => lib
  | .lune lib _ => lib
  | .luau lib _ => lib

/-- `Target::bin_path` from `manifest.rs` lines 137-146; the Roblox
variant has no notion of a binary and always yields `none`. -/
def Target.bin_path : Target → Option String
  | .roblox _ _ => none
  | .lune _ bin => bin
  | .luau _ bin => bin

/-- `errors::TargetValidatePublishError` from `manifest.rs`. -/
inductive TargetValidatePublishError where
  | NoExportedFiles
  | NoBuildFiles
deriving DecidableEq, Repr

/-- `Target::validate_publish` from `manifest.rs` lines 148-170: first the
`has_exports` check over lib/bin, then the Roblox build-file check. -/
def Target.validate_publish (t : Target) : Except TargetValidatePublishError Unit :=
  let has_exports :=
    match t with
    | .roblox lib _ => lib.isSome
    | .lune lib bin => lib.isSome || bin.isSome
    | .luau lib bin => lib.isSome || bin.isSome
  if !has_exports then
    .error .NoExportedFiles
  else
    match t with
    | .roblox _ build_files =>
        if build_files.isEmpty then .error .NoBuildFiles else .ok ()
    | _ => .ok ()

/-! ## OverrideKey (`manifest.rs` lines 179-219)

Rust's `str::split(sep)` yields the (possibly empty) substrings between
occurrences of the separator, and on the empty string yields one empty
substring. We embed strings as `List Char` and `split` as `splitOnChar`,
which has exactly those semantics. -/

/-- Semantics of Rust's `str::split(c)`: never empty; `"" ↦ [""]`. -/
def splitOnChar (c : Char) : List Char → List (List Char)
  | [] => [[]]
  | x :: xs =>
    match splitOnChar c xs with
    | r :: rs => if x = c then [] :: r :: rs else (x :: r) :: rs
    | [] => [[]]

/-- Semantics of Rust's `[&str]::join(c)` for a one-character separator. -/
def joinChar (c : Char) : List (List Char) → List Char
  | [] => []
  | [x] => x
  | x :: y :: rest => x ++ c :: joinChar c (y :: rest)

theorem splitOnChar_ne_nil (c : Char) (l : List Char) : splitOnChar c l ≠ [] := by
  cases l with
  | nil => simp [splitOnChar]
  | cons x xs =>
    rw [splitOnChar]
    rcases splitOnChar c xs with _ | ⟨r, rs⟩
    · simp
    · dsimp only
      split <;> simp

theorem joinChar_splitOnChar (c : Char) (l : List Char) :
    joinChar c (splitOnChar c l) = l := by
  induction l with
  | nil => simp [splitOnChar, joinChar]
  | cons x xs ih =>
    rw [splitOnChar]
    rcases h : splitOnChar c xs with _ | ⟨r, rs⟩
    · exact absurd h (splitOnChar_ne_nil c xs)
    · rw [h] at ih
      dsimp only
      by_cases hx : x = c
      · subst hx
        simp only [if_pos rfl, joinChar]
        cases rs <;> simpa [joinChar] using ih
      · simp only [if_neg hx]
        cases rs <;> simpa [joinChar] using ih

/-- `errors::OverrideKeyFromStr` from `manifest.rs`. -/
inductive OverrideKeyFromStr where
  | Empty
deriving DecidableEq, Repr

/-- `OverrideKey` from `manifest.rs` line 182: an ordered sequence of
alias chains, each chain a sequence of alias names. -/
structure OverrideKey where
  chains : List (List (List Char))
deriving DecidableEq, Repr

/-- `OverrideKey::from_str` from `manifest.rs` lines 184-199: split on
`,` into chains, each chain split on `>` into alias names; error `Empty`
when the split yields no chains. -/
def OverrideKey.from_str (s : List Char) : Except OverrideKeyFromStr OverrideKey :=
  let overrides := (splitOnChar ',' s).map (splitOnChar '>')
  if overrides.isEmpty then .error .Empty
  else .ok ⟨overrides⟩

/-- `Display for OverrideKey` from `manifest.rs` lines 201-219: join each
chain with `>`, join the chains with `,`. -/
def OverrideKey.display (k : OverrideKey) : List Char :=
  joinChar ',' (k.chains.map (joinChar '>'))

/-! ## Manifest dependency merge (`manifest.rs` lines 240-309)

A `BTreeMap` is embedded as an association list with pairwise-distinct
keys; `insert` replaces an existing binding in place and reports the old
value, exactly like `BTreeMap::insert`. The specifier type is left as a
type parameter `α`, since `DependencySpecifiers` lives outside the
resolution core and is only carried around by this code. -/

/-- `DependencyType` from `manifest.rs` lines 278-284. -/
inductive DependencyType where
  | Standard
  | Dev
  | Peer
deriving DecidableEq, Repr

/-- `errors::AllDependenciesError` from `manifest.rs`. -/
inductive AllDependenciesError where
  | AliasConflict (aliasName : String)
deriving DecidableEq, Repr

/-- `BTreeMap::insert` on an association list with unique keys: replaces
an existing binding, returning the previous value when there was one. -/
def btreeInsert {α : Type} (k : String) (v : α) :
    List (String × α) → List (String × α) × Option α
  | [] => ([(k, v)], none)
  | (k', v') :: rest =>
    if k = k' then ((k, v) :: rest, some v')
    else
      let r := btreeInsert k v rest
      ((k', v') :: r.1, r.2)

/-- The three dependency tables of a `Manifest` (`manifest.rs` lines
270-275); the rest of the manifest plays no part in `all_dependencies`. -/
structure Manifest (α : Type) where
  dependencies : List (String × α)
  peer_dependencies : List (String × α)
  dev_dependencies : List (String × α)

/-- The inner loop of `Manifest::all_dependencies` (`manifest.rs` lines
300-305): insert each (alias, spec) of one source map into the
accumulated map, failing with `AliasConflict` as soon as an insert
reports a previous occupant. -/
def insertDeps {α : Type} (ty : DependencyType) :
    List (String × α) → List (String × (α × DependencyType)) →
    Except AllDependenciesError (List (String × (α × DependencyType)))
  | [], acc => .ok acc
  | (aliasName, spec) :: rest, acc =>
    let r := btreeInsert aliasName (spec, ty) acc
    match r.2 with
    | some _ => .error (.AliasConflict aliasName)
    | none => insertDeps ty rest r.1

/-- `Manifest::all_dependencies` from `manifest.rs` lines 287-308:
iterate the standard, peer, then dev maps in that order, merging into one
alias-keyed map. -/
def Manifest.all_dependencies {α : Type} (m : Manifest α) :
    Except AllDependenciesError (List (String × (α × DependencyType))) :=
  match insertDeps .Standard m.dependencies [] with
  | .error e => .error e
  | .ok acc =>
    match insertDeps .Peer m.peer_dependencies acc with
    | .error e => .error e
    | .ok acc => insertDeps .Dev m.dev_dependencies acc

/-- An alias is reused when it occurs as a key in more than one of the
three dependency maps of a manifest. -/
def Manifest.reused {α : Type} (m : Manifest α) (a : String) : Prop :=
  (a ∈ m.dependencies.map Prod.fst ∧ a ∈ m.peer_dependencies.map Prod.fst) ∨
  (a ∈ m.dependencies.map Prod.fst ∧ a ∈ m.dev_dependencies.map Prod.fst) ∨
  (a ∈ m.peer_dependencies.map Prod.fst ∧ a ∈ m.dev_dependencies.map Prod.fst)

/-- The conflict-free merge result: the three maps tagged with their
`DependencyType` and laid out in merge order. -/
def Manifest.mergedDeps {α : Type} (m : Manifest α) :
    List (String × (α × DependencyType)) :=
  (m.dependencies.map fun p => (p.1, (p.2, DependencyType.Standard))) ++
  (m.peer_dependencies.map fun p => (p.1, (p.2, DependencyType.Peer))) ++
  (m.dev_dependencies.map fun p => (p.1, (p.2, DependencyType.Dev)))

/-! ## Index record model and documentation tree

`IndexFile` is `BTreeMap<VersionId, IndexFileEntry>` (spec §3); its type
lives in `pesde::source::pesde`, outside `src/`, so the record shape is
modelled from the spec. A loaded map is embedded as its iteration
sequence: an association list whose keys are strictly increasing in the
`VersionId` order (version first, then target kind). The version type is
an abstract linear order `V`, standing for semver precedence. -/

/-- `VersionId` (spec §3): a semantic version plus a `TargetKind`;
ordering is (version, then target-kind order). -/
structure VersionId (V : Type) where
  version : V
  target : TargetKind
deriving DecidableEq, Repr

/-- The strict `Ord` on `VersionId` that `BTreeMap` iteration follows:
lexicographic on (version, target kind). -/
def vidKeyLT {V : Type} [LinearOrder V] (a b : VersionId V) : Prop :=
  a.version < b.version ∨ (a.version = b.version ∧ a.target < b.target)

/-- Modelled from the spec: a documentation-tree node (§3) is either a
`Page` (name + content hash) or a `Category` (name + ordered children);
`DocEntryKind` itself lives in `pesde::source::pesde`, outside `src/`. -/
inductive DocNode where
  | page (name : String) (hash : String)
  | category (name : String) (items : List DocNode)
deriving Repr

mutual

/-- Node count of one documentation node (termination measure). -/
def DocNode.size : DocNode → Nat
  | .page _ _ => 1
  | .category _ items => 1 + docListSize items

/-- Node count of a documentation forest. -/
def docListSize : List DocNode → Nat
  | [] => 0
  | d :: ds => DocNode.size d + docListSize ds

end

theorem docListSize_append (l1 l2 : List DocNode) :
    docListSize (l1 ++ l2) = docListSize l1 + docListSize l2 := by
  induction l1 with
  | nil => simp [docListSize]
  | cons d ds ih => simp [docListSize, ih]; omega

theorem docListSize_reverse (l : List DocNode) :
    docListSize l.reverse = docListSize l := by
  induction l with
  | nil => rfl
  | cons d ds ih => simp [docListSize, List.reverse_cons, docListSize_append, ih]; omega

/-- Modelled from the spec: `IndexFileEntry` (§3) — the published
metadata for one version+target. The dependency table's specifier values
are opaque strings here; the endpoint only carries them through. -/
structure IndexFileEntry where
  target : Target
  published_at : Nat
  description : Option String
  license : Option String
  authors : List String
  repository : Option String
  dependencies : List (String × String)
  docs : List DocNode
deriving Repr

/-- `VersionRequest` from `package_version.rs` lines 15-19. -/
inductive VersionRequest (V : Type) where
  | latest
  | specific (version : V)

/-- `TargetRequest` from `package_version.rs` lines 37-41. -/
inductive TargetRequest where
  | any
  | specific (kind : TargetKind)

/-- `TargetInfo` from `registry/src/package.rs`: kind plus whether a
library/binary export exists. (The upstream struct also lists script
names; the `Target` in `src/src/manifest.rs` declares no scripts, so
that set is always empty and is omitted.) -/
structure TargetInfo where
  kind : TargetKind
  lib : Bool
  bin : Bool
deriving DecidableEq, Repr

/-- `From<&Target> for TargetInfo` from `registry/src/package.rs`. -/
def Target.toTargetInfo (t : Target) : TargetInfo :=
  { kind := t.kind, lib := t.lib_path.isSome, bin := t.bin_path.isSome }

/-- Rust `Iterator::max`: maximum of the sequence, `none` when empty; of
several equal maxima the last is kept. -/
def iterMax {α : Type} [LinearOrder α] : List α → Option α
  | [] => none
  | x :: xs =>
    match iterMax xs with
    | none => some x
    | some y => if y < x then some x else some y

/-- Rust `Iterator::min_by_key`: element with minimal key, `none` when
empty; of several equal minima the first is kept. -/
def minByKey {α β : Type} [LinearOrder β] (key : α → β) : List α → Option α
  | [] => none
  | x :: xs =>
    match minByKey key xs with
    | none => some x
    | some y => if key x ≤ key y then some x else some y

/-! ## The resolution engine (`package_version.rs` lines 85-170) -/

/-- The `version` match of `get_package_version` (lines 86-92): `Latest`
takes the maximum version over all keys (`none` for an empty file),
`Specific` is used verbatim. -/
def resolveVersion {V : Type} [LinearOrder V]
    (entries : List (VersionId V × IndexFileEntry)) :
    VersionRequest V → Option V
  | .latest => iterMax (entries.map fun p => p.1.version)
  | .specific v => some v

/-- Lines 85-113 of `get_package_version`: resolve the version, filter
the entries to that version, select by target request (`Any` = minimal
key target via `min_by_key`, `Specific` = first entry whose target kind
matches via `find`), and collect the target summaries of every entry at
the resolved version. `none` is the not-found outcome. -/
def getPackageVersion {V : Type} [LinearOrder V]
    (entries : List (VersionId V × IndexFileEntry))
    (vreq : VersionRequest V) (treq : TargetRequest) :
    Option (VersionId V × IndexFileEntry × List TargetInfo) :=
  match resolveVersion entries vreq with
  | none => none
  | some version =>
    let versions := entries.filter fun p => decide (p.1.version = version)
    let selected :=
      match treq with
      | .any =>
          minByKey (fun p : VersionId V × IndexFileEntry => p.1.target) versions
      | .specific kind =>
          versions.find? fun p => decide (p.2.target.kind = kind)
    selected.map fun p : VersionId V × IndexFileEntry =>
      (p.1, p.2, versions.map fun q => q.2.target.toTargetInfo)

/-- Lines 115-131 of `get_package_version`: the documentation worklist.
The stack is kept top-first (the Rust `Vec` pops from its end, so the
`Vec`'s reverse is this list): popping is taking the head, a matching
page ends the search with its hash, a category pushes its children (the
last child ends up on top, hence `items.reverse ++ rest`). -/
def docWorklist (docName : String) : List DocNode → Option String
  | [] => none
  | node :: rest =>
    match node with
    | .page name h => if name = docName then some h else docWorklist docName rest
    | .category _ items => docWorklist docName (items.reverse ++ rest)
termination_by l => docListSize l
decreasing_by
  · simp [docListSize, DocNode.size]
  · simp [docListSize, DocNode.size, docListSize_append, docListSize_reverse]

/-- Line 117: the worklist starts as the collected top-level nodes, whose
stack top is the last top-level node. -/
def docSearch (docName : String) (docs : List DocNode) : Option String :=
  docWorklist docName docs.reverse

mutual

/-- Modelled from the spec (§4.5 step 6): the pinned visit order of the
worklist search — a node is visited before its children and the search
is depth-first, last-pushed-first, so both the top-level nodes and the
children of a category are explored in reverse list order. -/
def DocNode.visitOrder : DocNode → List DocNode
  | .page n h => [.page n h]
  | .category n items => .category n items :: docListVisitOrder items

/-- Visit order of a node list, last element's subtree first. -/
def docListVisitOrder : List DocNode → List DocNode
  | [] => []
  | d :: ds => docListVisitOrder ds ++ d.visitOrder

end

mutual

/-- All (name, hash) pages of one documentation node. -/
def DocNode.pages : DocNode → List (String × String)
  | .page n h => [(n, h)]
  | .category _ items => docListPages items

/-- All (name, hash) pages of a documentation forest. -/
def docListPages : List DocNode → List (String × String)
  | [] => []
  | d :: ds => d.pages ++ docListPages ds

end

/-- The hash of the first `Page` named `docName` in a flat node
sequence, skipping category nodes. -/
def firstPageHash (docName : String) : List DocNode → Option String
  | [] => none
  | .page n h :: rest =>
      if n = docName then some h else firstPageHash docName rest
  | .category _ _ :: rest => firstPageHash docName rest

/-- Visit order realized by a worklist stack (top of stack first). -/
def stackVisit : List DocNode → List DocNode
  | [] => []
  | d :: ds => d.visitOrder ++ stackVisit ds

/-- Lines 136-144 of `get_package_version`: lowercase the Accept header
value and map it to `some true` (readme), `some false` (artifact) or
`none` (metadata). The header is `none` when absent or unreadable. -/
def negotiateAccept (accept : Option (List Char)) : Option Bool :=
  match accept with
  | none => none
  | some s =>
    if s.map Char.toLower = "text/plain".data then some true
    else if s.map Char.toLower = "application/octet-stream".data then some false
    else none

/-- The endpoint's outcome: HTTP 404, a doc-storage fetch, a readme
fetch, an artifact fetch, or the composed JSON metadata. -/
inductive Response (V : Type) where
  | notFound
  | doc (hash : String)
  | readme (id : VersionId V)
  | package (id : VersionId V)
  | metadata (id : VersionId V) (entry : IndexFileEntry) (targets : List TargetInfo)

/-- `get_package_version` end to end (lines 74-169), with the storage
fetches left abstract: `indexFile` is `none` when `read_file` found no
record; otherwise the loaded map's iteration sequence is consulted. -/
def handlePackageVersion {V : Type} [LinearOrder V]
    (indexFile : Option (List (VersionId V × IndexFileEntry)))
    (vreq : VersionRequest V) (treq : TargetRequest)
    (docName : Option String) (accept : Option (List Char)) : Response V :=
  match indexFile with
  | none => .notFound
  | some entries =>
    match getPackageVersion entries vreq treq with
    | none => .notFound
    | some (vid, entry, targets) =>
      match docName with
      | some dn =>
        match docSearch dn entry.docs with
        | some h => .doc h
        | none => .notFound
      | none =>
        match negotiateAccept accept with
        | some true => .readme vid
        | some false => .package vid
        | none => .metadata vid entry targets

/-! ## Theorems -/

/-- `from_str` computed in closed form: the `is_empty` guard never
fires, because splitting always yields at least one chain. -/
theorem OverrideKey.from_str_eq (s : List Char) :
    OverrideKey.from_str s = .ok ⟨(splitOnChar ',' s).map (splitOnChar '>')⟩ := by
  have hne : (splitOnChar ',' s).map (splitOnChar '>') ≠ [] := by
    intro hnil
    exact splitOnChar_ne_nil ',' s (List.map_eq_nil_iff.mp hnil)
  simp [OverrideKey.from_str, List.isEmpty_iff, hne]

/-- C6: whenever `OverrideKey` parsing succeeds on a string `s`,
displaying the parsed key reproduces `s` exactly. -/
theorem overrideKey_parse_display_roundtrip (s : List Char) (k : OverrideKey)
    (h : OverrideKey.from_str s = .ok k) : k.display = s := by
  rw [OverrideKey.from_str_eq] at h
  injection h with h
  subst h
  simp only [OverrideKey.display, List.map_map, Function.comp_def,
    joinChar_splitOnChar]
  simpa using joinChar_splitOnChar ',' s

/-- Witness for C6 at the concrete input `"a>b,c"`. -/
theorem overrideKey_parse_display_roundtrip_witness :
    OverrideKey.display ⟨[[['a'], ['b']], [['c']]]⟩ = "a>b,c".data :=
  overrideKey_parse_display_roundtrip "a>b,c".data ⟨[[['a'], ['b']], [['c']]]⟩
    rfl

/-- C7 (refuting the claim): parsing the empty string does NOT fail —
Rust's `"".split(',')` yields one empty chunk, so the `is_empty` guard
is dead and `from_str` succeeds on every input, the empty string
included (producing one chain holding one empty alias name). -/
theorem overrideKey_from_str_never_fails :
    OverrideKey.from_str [] = .ok ⟨[[[]]]⟩ ∧
    ∀ s : List Char, ∃ k, OverrideKey.from_str s = .ok k :=
  ⟨rfl, fun s => ⟨_, OverrideKey.from_str_eq s⟩⟩

/-- C8: `is_compatible_with` holds exactly on equal kinds plus the single
extra pair (Lune, Luau); in particular it is reflexive, and the reverse
pair (Luau, Lune) is incompatible. -/
theorem is_compatible_with_characterization :
    ∀ a b : TargetKind,
      a.is_compatible_with b = true ↔ (a = b ∨ (a = .lune ∧ b = .luau)) := by
  intro a b
  cases a <;> cases b <;> decide

/-- C9: `validate_publish` fails with `NoExportedFiles` exactly when
both the library and binary paths are absent (regardless of other
fields); otherwise it fails with `NoBuildFiles` exactly for a Roblox
target with an empty build-file set; otherwise it succeeds. -/
theorem validate_publish_characterization (t : Target) :
    t.validate_publish =
      (if t.lib_path = none ∧ t.bin_path = none then
        .error .NoExportedFiles
      else
        match t with
        | .roblox _ build_files =>
            if build_files.isEmpty then .error .NoBuildFiles else .ok ()
        | _ => .ok ()) := by
  cases t with
  | roblox lib bf =>
      cases lib <;> cases bf <;>
        simp [Target.validate_publish, Target.lib_path, Target.bin_path]
  | lune lib bin =>
      cases lib <;> cases bin <;>
        simp [Target.validate_publish, Target.lib_path, Target.bin_path]
  | luau lib bin =>
      cases lib <;> cases bin <;>
        simp [Target.validate_publish, Target.lib_path, Target.bin_path]

theorem btreeInsert_not_mem {α : Type} (k : String) (v : α)
    (l : List (String × α)) (h : k ∉ l.map Prod.fst) :
    btreeInsert k v l = (l ++ [(k, v)], none) := by
  induction l with
  | nil => rfl
  | cons p rest ih =>
    obtain ⟨k', v'⟩ := p
    simp only [List.map_cons, List.mem_cons] at h
    push_neg at h
    simp [btreeInsert, if_neg h.1, ih h.2]

theorem btreeInsert_mem {α : Type} (k : String) (v : α)
    (l : List (String × α)) (h : k ∈ l.map Prod.fst) :
    ∃ old, (btreeInsert k v l).2 = some old := by
  induction l with
  | nil => simp at h
  | cons p rest ih =>
    obtain ⟨k', v'⟩ := p
    by_cases hk : k = k'
    · exact ⟨v', by simp [btreeInsert, hk]⟩
    · simp only [List.map_cons, List.mem_cons] at h
      rcases h with h | h
      · exact absurd h hk
      · obtain ⟨old, hold⟩ := ih h
        exact ⟨old, by simp [btreeInsert, hk, hold]⟩

theorem mapDeps_keys {α : Type} (ty : DependencyType) (l : List (String × α)) :
    (l.map fun p => (p.1, (p.2, ty))).map Prod.fst = l.map Prod.fst := by
  simp [List.map_map, Function.comp_def]

theorem insertDeps_ok {α : Type} (ty : DependencyType)
    (deps : List (String × α)) (acc : List (String × (α × DependencyType)))
    (hnd : (deps.map Prod.fst).Nodup)
    (h : ∀ k ∈ deps.map Prod.fst, k ∉ acc.map Prod.fst) :
    insertDeps ty deps acc =
      .ok (acc ++ deps.map fun p => (p.1, (p.2, ty))) := by
  induction deps generalizing acc with
  | nil => simp [insertDeps]
  | cons p rest ih =>
    obtain ⟨a, s⟩ := p
    have ha : a ∉ acc.map Prod.fst := h a (by simp)
    have hb := btreeInsert_not_mem a (s, ty) acc ha
    simp only [List.map_cons, List.nodup_cons] at hnd
    rw [insertDeps, hb]
    have h' : ∀ k ∈ rest.map Prod.fst, k ∉ (acc ++ [(a, (s, ty))]).map Prod.fst := by
      intro k hk
      simp only [List.map_append, List.mem_append]
      push_neg
      refine ⟨h k (by simp [hk]), ?_⟩
      simp only [List.map_cons, List.map_nil, List.mem_singleton]
      rintro rfl
      exact hnd.1 hk
    rw [ih (acc ++ [(a, (s, ty))]) hnd.2 h']
    simp

theorem insertDeps_conflict {α : Type} (ty : DependencyType)
    (deps : List (String × α)) (acc : List (String × (α × DependencyType)))
    (hnd : (deps.map Prod.fst).Nodup)
    (h : ∃ k, k ∈ deps.map Prod.fst ∧ k ∈ acc.map Prod.fst) :
    ∃ a, insertDeps ty deps acc = .error (.AliasConflict a) ∧
      a ∈ deps.map Prod.fst ∧ a ∈ acc.map Prod.fst := by
  induction deps generalizing acc with
  | nil =>
    obtain ⟨k, hk, _⟩ := h
    simp at hk
  | cons p rest ih =>
    obtain ⟨a, s⟩ := p
    simp only [List.map_cons, List.nodup_cons] at hnd
    by_cases ha : a ∈ acc.map Prod.fst
    · obtain ⟨old, hold⟩ := btreeInsert_mem a (s, ty) acc ha
      refine ⟨a, ?_, by simp, ha⟩
      rw [insertDeps, hold]
    · obtain ⟨k, hk, hkacc⟩ := h
      have hka : k ≠ a := fun he => ha (he ▸ hkacc)
      have hkrest : k ∈ rest.map Prod.fst := by
        rw [List.map_cons] at hk
        rcases List.mem_cons.mp hk with h1 | h1
        · exact absurd h1 hka
        · exact h1
      have hb := btreeInsert_not_mem a (s, ty) acc ha
      obtain ⟨a', herr, ha'rest, ha'acc⟩ :=
        ih (acc ++ [(a, (s, ty))]) hnd.2 ⟨k, hkrest, by simp [hkacc]⟩
      have ha'ne : a' ≠ a := by
        rintro rfl
        exact hnd.1 ha'rest
      refine ⟨a', ?_, by simp [ha'rest], ?_⟩
      · rw [insertDeps, hb]
        exact herr
      · simpa [ha'ne] using ha'acc

theorem all_dependencies_ok_of_no_reuse {α : Type} (m : Manifest α)
    (hd : (m.dependencies.map Prod.fst).Nodup)
    (hp : (m.peer_dependencies.map Prod.fst).Nodup)
    (hv : (m.dev_dependencies.map Prod.fst).Nodup)
    (h : ∀ a, ¬ m.reused a) :
    m.all_dependencies = .ok m.mergedDeps := by
  have h1 : insertDeps .Standard m.dependencies [] =
      .ok ([] ++ m.dependencies.map fun p => (p.1, (p.2, .Standard))) :=
    insertDeps_ok _ _ _ hd (by simp)
  have h2 : insertDeps .Peer m.peer_dependencies
      (m.dependencies.map fun p => (p.1, (p.2, .Standard))) =
      .ok ((m.dependencies.map fun p => (p.1, (p.2, DependencyType.Standard))) ++
        m.peer_dependencies.map fun p => (p.1, (p.2, .Peer))) := by
    refine insertDeps_ok _ _ _ hp ?_
    intro k hk hmem
    rw [mapDeps_keys] at hmem
    exact h k (.inl ⟨hmem, hk⟩)
  have h3 : insertDeps .Dev m.dev_dependencies
      ((m.dependencies.map fun p => (p.1, (p.2, DependencyType.Standard))) ++
        m.peer_dependencies.map fun p => (p.1, (p.2, DependencyType.Peer))) =
      .ok m.mergedDeps := by
    refine insertDeps_ok _ _ _ hv ?_
    intro k hk hmem
    rw [List.map_append, List.mem_append, mapDeps_keys, mapDeps_keys] at hmem
    rcases hmem with hmem | hmem
    · exact h k (.inr (.inl ⟨hmem, hk⟩))
    · exact h k (.inr (.inr ⟨hmem, hk⟩))
  simp only [Manifest.all_dependencies, h1, List.nil_append, h2, h3]

theorem all_dependencies_error_of_reuse {α : Type} (m : Manifest α)
    (hd : (m.dependencies.map Prod.fst).Nodup)
    (hp : (m.peer_dependencies.map Prod.fst).Nodup)
    (hv : (m.dev_dependencies.map Prod.fst).Nodup)
    (h : ∃ a, m.reused a) :
    ∃ a, m.all_dependencies = .error (.AliasConflict a) ∧ m.reused a := by
  have h1 : insertDeps .Standard m.dependencies [] =
      .ok ([] ++ m.dependencies.map fun p => (p.1, (p.2, .Standard))) :=
    insertDeps_ok _ _ _ hd (by simp)
  by_cases hdp : ∃ k, k ∈ m.peer_dependencies.map Prod.fst ∧
      k ∈ m.dependencies.map Prod.fst
  · obtain ⟨k, hkp, hkd⟩ := hdp
    obtain ⟨a, herr, hap, had⟩ :=
      insertDeps_conflict .Peer m.peer_dependencies
        (m.dependencies.map fun p => (p.1, (p.2, .Standard))) hp
        ⟨k, hkp, by rw [mapDeps_keys]; exact hkd⟩
    rw [mapDeps_keys] at had
    refine ⟨a, ?_, .inl ⟨had, hap⟩⟩
    simp only [Manifest.all_dependencies, h1, List.nil_append, herr]
  · have h2 : insertDeps .Peer m.peer_dependencies
        (m.dependencies.map fun p => (p.1, (p.2, .Standard))) =
        .ok ((m.dependencies.map fun p => (p.1, (p.2, DependencyType.Standard))) ++
          m.peer_dependencies.map fun p => (p.1, (p.2, .Peer))) := by
      refine insertDeps_ok _ _ _ hp ?_
      intro k hk hmem
      rw [mapDeps_keys] at hmem
      exact hdp ⟨k, hk, hmem⟩
    have hdev : ∃ k, k ∈ m.dev_dependencies.map Prod.fst ∧
        (k ∈ m.dependencies.map Prod.fst ∨ k ∈ m.peer_dependencies.map Prod.fst) := by
      obtain ⟨a, ha⟩ := h
      rcases ha with ⟨h1', h2'⟩ | ⟨h1', h2'⟩ | ⟨h1', h2'⟩
      · exact absurd ⟨a, h2', h1'⟩ hdp
      · exact ⟨a, h2', .inl h1'⟩
      · exact ⟨a, h2', .inr h1'⟩
    obtain ⟨k, hkv, hkdp⟩ := hdev
    obtain ⟨a, herr, hav, hadp⟩ :=
      insertDeps_conflict .Dev m.dev_dependencies
        ((m.dependencies.map fun p => (p.1, (p.2, DependencyType.Standard))) ++
          m.peer_dependencies.map fun p => (p.1, (p.2, DependencyType.Peer))) hv
        ⟨k, hkv, by
          rw [List.map_append, List.mem_append, mapDeps_keys, mapDeps_keys]
          exact hkdp⟩
    rw [List.map_append, List.mem_append, mapDeps_keys, mapDeps_keys] at hadp
    refine ⟨a, ?_, ?_⟩
    · simp only [Manifest.all_dependencies, h1, List.nil_append, h2, herr]
    · rcases hadp with hadp | hadp
      · exact .inr (.inl ⟨hadp, hav⟩)
      · exact .inr (.inr ⟨hadp, hav⟩)

/-- C5: with the three alias maps each having unique keys (as `BTreeMap`
guarantees), `all_dependencies` succeeds with a merged map of size equal
to the sum of the three map sizes iff no alias occurs in more than one
map; when some alias is reused it fails with `AliasConflict` naming a
reused alias. -/
theorem all_dependencies_correct {α : Type} (m : Manifest α)
    (hd : (m.dependencies.map Prod.fst).Nodup)
    (hp : (m.peer_dependencies.map Prod.fst).Nodup)
    (hv : (m.dev_dependencies.map Prod.fst).Nodup) :
    ((∃ r, m.all_dependencies = .ok r ∧
        r.length = m.dependencies.length + m.peer_dependencies.length +
          m.dev_dependencies.length) ↔ ∀ a, ¬ m.reused a)
    ∧ ((∃ a, m.reused a) →
        ∃ a, m.all_dependencies = .error (.AliasConflict a) ∧ m.reused a) := by
  constructor
  · constructor
    · rintro ⟨r, hr, -⟩ a hra
      obtain ⟨a', ha', -⟩ := all_dependencies_error_of_reuse m hd hp hv ⟨a, hra⟩
      rw [hr] at ha'
      cases ha'
    · intro h
      refine ⟨m.mergedDeps, all_dependencies_ok_of_no_reuse m hd hp hv h, ?_⟩
      simp [Manifest.mergedDeps]
      omega
  · exact all_dependencies_error_of_reuse m hd hp hv

/-- Witness for C5 at a concrete conflict-free manifest. -/
theorem all_dependencies_correct_witness :
    ∃ r, (Manifest.mk [("a", (0 : Nat))] [("b", 1)] [("c", 2)]).all_dependencies
        = .ok r ∧ r.length = 3 := by
  have h := all_dependencies_correct (Manifest.mk [("a", (0 : Nat))] [("b", 1)] [("c", 2)])
    (by simp) (by simp) (by simp)
  obtain ⟨r, hr, hl⟩ := h.1.mpr (by
    intro a
    simp only [Manifest.reused, List.map_cons, List.map_nil, List.mem_singleton]
    rintro (⟨rfl, hc⟩ | ⟨rfl, hc⟩ | ⟨rfl, hc⟩) <;> simp at hc)
  exact ⟨r, hr, by simpa using hl⟩

/-! ## Engine lemmas and claims C1-C3 -/

theorem iterMax_spec {α : Type} [LinearOrder α] (l : List α) (h : l ≠ []) :
    ∃ m, iterMax l = some m ∧ m ∈ l ∧ ∀ x ∈ l, x ≤ m := by
  induction l with
  | nil => exact absurd rfl h
  | cons x xs ih =>
    rcases eq_or_ne xs [] with hxs | hxs
    · subst hxs
      exact ⟨x, rfl, by simp, by simp⟩
    · obtain ⟨m, hm, hmem, hle⟩ := ih hxs
      rw [iterMax, hm]
      by_cases hlt : m < x
      · refine ⟨x, by simp [hlt], by simp, ?_⟩
        intro z hz
        rcases List.mem_cons.mp hz with rfl | hz
        · exact le_refl _
        · exact le_of_lt (lt_of_le_of_lt (hle z hz) hlt)
      · refine ⟨m, by simp [hlt], by simp [hmem], ?_⟩
        intro z hz
        rcases List.mem_cons.mp hz with rfl | hz
        · exact not_lt.mp hlt
        · exact hle z hz

theorem minByKey_spec {α β : Type} [LinearOrder β] (key : α → β)
    (l : List α) (h : l ≠ []) :
    ∃ x, minByKey key l = some x ∧ x ∈ l ∧ ∀ y ∈ l, key x ≤ key y := by
  induction l with
  | nil => exact absurd rfl h
  | cons a xs ih =>
    rcases eq_or_ne xs [] with hxs | hxs
    · subst hxs
      exact ⟨a, rfl, by simp, by simp⟩
    · obtain ⟨x, hx, hmem, hle⟩ := ih hxs
      rw [minByKey, hx]
      by_cases hk : key a ≤ key x
      · refine ⟨a, by simp [hk], by simp, ?_⟩
        intro y hy
        rcases List.mem_cons.mp hy with rfl | hy
        · exact le_refl _
        · exact le_trans hk (hle y hy)
      · refine ⟨x, by simp [hk], by simp [hmem], ?_⟩
        intro y hy
        rcases List.mem_cons.mp hy with rfl | hy
        · exact le_of_lt (not_le.mp hk)
        · exact hle y hy

theorem vidKeyLT_asymm {V : Type} [LinearOrder V] {a b : VersionId V}
    (h1 : vidKeyLT a b) (h2 : vidKeyLT b a) : False := by
  rcases h1 with h1 | ⟨he1, h1⟩ <;> rcases h2 with h2 | ⟨he2, h2⟩
  · exact lt_asymm h1 h2
  · rw [he2] at h1
    exact lt_irrefl _ h1
  · rw [he1] at h2
    exact lt_irrefl _ h2
  · exact lt_asymm h1 h2

theorem getPackageVersion_specific_any {V : Type} [LinearOrder V]
    (entries : List (VersionId V × IndexFileEntry)) (v : V) :
    getPackageVersion entries (.specific v) .any =
      (minByKey (fun p : VersionId V × IndexFileEntry => p.1.target)
        (entries.filter fun p => decide (p.1.version = v))).map
        (fun p => (p.1, p.2,
          (entries.filter fun p => decide (p.1.version = v)).map
            fun q => q.2.target.toTargetInfo)) := rfl

theorem getPackageVersion_specific_specific {V : Type} [LinearOrder V]
    (entries : List (VersionId V × IndexFileEntry)) (v : V) (k : TargetKind) :
    getPackageVersion entries (.specific v) (.specific k) =
      ((entries.filter fun p => decide (p.1.version = v)).find?
        (fun p => decide (p.2.target.kind = k))).map
        (fun p => (p.1, p.2,
          (entries.filter fun p => decide (p.1.version = v)).map
            fun q => q.2.target.toTargetInfo)) := rfl

/-- Concrete semantic versions for the witnesses: major.minor.patch
under semver precedence (lexicographic); prerelease identifiers are
omitted, none of the spec's examples carries one. -/
structure SemVer where
  major : Nat
  minor : Nat
  patch : Nat
deriving DecidableEq, Repr

/-- Lexicographic key of a version. -/
def SemVer.key (v : SemVer) : Lex (Nat × Lex (Nat × Nat)) :=
  toLex (v.major, toLex (v.minor, v.patch))

theorem SemVer.key_injective : Function.Injective SemVer.key := by
  rintro ⟨a1, a2, a3⟩ ⟨b1, b2, b3⟩ h
  simp only [SemVer.key, toLex_inj, Prod.mk.injEq] at h
  obtain ⟨h1, h2, h3⟩ := h
  simp [h1, h2, h3]

instance : LinearOrder SemVer :=
  LinearOrder.lift' SemVer.key SemVer.key_injective

/-- A minimal index entry used by the witnesses. -/
def sampleEntry (t : Target) : IndexFileEntry :=
  { target := t, published_at := 0, description := none, license := none,
    authors := [], repository := none, dependencies := [], docs := [] }

/-- Witness index for C1: versions 1.0.0 and 1.2.0, one target each. -/
def sampleIdxLatest : List (VersionId SemVer × IndexFileEntry) :=
  [(⟨⟨1, 0, 0⟩, .luau⟩, sampleEntry (.luau (some "lib") none)),
   (⟨⟨1, 2, 0⟩, .luau⟩, sampleEntry (.luau (some "lib") none))]

/-- C1: resolving the `Latest` selector yields the maximum version among
the keys of the loaded index file, and a query against a file with no
entries answers not-found. -/
theorem latest_version_resolution {V : Type} [LinearOrder V]
    (entries : List (VersionId V × IndexFileEntry)) :
    (entries ≠ [] →
      ∃ m, resolveVersion entries .latest = some m ∧
        (∃ p ∈ entries, p.1.version = m) ∧ ∀ p ∈ entries, p.1.version ≤ m)
    ∧ ∀ (treq : TargetRequest) (docName : Option String)
        (accept : Option (List Char)),
        handlePackageVersion (some ([] : List (VersionId V × IndexFileEntry)))
          .latest treq docName accept = .notFound := by
  constructor
  · intro hne
    have hmapne : entries.map (fun p => p.1.version) ≠ [] := by
      simpa using hne
    obtain ⟨m, hm, hmem, hle⟩ := iterMax_spec _ hmapne
    refine ⟨m, hm, ?_, ?_⟩
    · obtain ⟨p, hp, hpv⟩ := List.mem_map.mp hmem
      exact ⟨p, hp, hpv⟩
    · intro p hp
      exact hle _ (List.mem_map_of_mem _ hp)
  · intro treq docName accept
    rfl

/-- Witness for C1: on an index holding 1.0.0 and 1.2.0, `Latest`
resolves to 1.2.0. -/
theorem latest_version_resolution_witness :
    resolveVersion sampleIdxLatest .latest = some ⟨1, 2, 0⟩ ∧
    (∃ m, resolveVersion sampleIdxLatest .latest = some m ∧
      (∃ p ∈ sampleIdxLatest, p.1.version = m) ∧
      ∀ p ∈ sampleIdxLatest, p.1.version ≤ m) :=
  ⟨rfl, (latest_version_resolution sampleIdxLatest).1 (by simp [sampleIdxLatest])⟩

/-- The `BTreeMap` iteration invariant for a loaded index file: keys
strictly increasing in the `VersionId` order. -/
def IndexSorted {V : Type} [LinearOrder V]
    (entries : List (VersionId V × IndexFileEntry)) : Prop :=
  entries.Pairwise fun p q => vidKeyLT p.1 q.1

/-- C2: when at least one entry carries the resolved version, selector
`Any` answers with an entry at that version whose target kind is minimal
among those entries; and any two key-sorted listings of the same entry
set (iteration of the stored map is key-sorted, whatever the insertion
order was) produce the same outcome. -/
theorem any_target_selects_minimal {V : Type} [LinearOrder V]
    (entries : List (VersionId V × IndexFileEntry)) (v : V)
    (hne : entries.filter (fun p => decide (p.1.version = v)) ≠ []) :
    (∃ vid entry ts,
      getPackageVersion entries (.specific v) .any = some (vid, entry, ts) ∧
      (vid, entry) ∈ entries ∧ vid.version = v ∧
      ∀ q ∈ entries, q.1.version = v → vid.target ≤ q.1.target)
    ∧ ∀ entries₂, IndexSorted entries → IndexSorted entries₂ →
        entries.Perm entries₂ →
        getPackageVersion entries₂ (.specific v) .any =
          getPackageVersion entries (.specific v) .any := by
  constructor
  · obtain ⟨x, hx, hmem, hle⟩ := minByKey_spec
      (fun p : VersionId V × IndexFileEntry => p.1.target) _ hne
    refine ⟨x.1, x.2,
      (entries.filter fun p => decide (p.1.version = v)).map
        (fun q => q.2.target.toTargetInfo), ?_, ?_, ?_, ?_⟩
    · rw [getPackageVersion_specific_any, hx]
      rfl
    · exact (List.mem_filter.mp hmem).1
    · simpa using (List.mem_filter.mp hmem).2
    · intro q hq hqv
      exact hle q (List.mem_filter.mpr ⟨hq, by simpa using hqv⟩)
  · intro entries₂ h1 h2 hperm
    haveI : IsAntisymm (VersionId V × IndexFileEntry)
        (fun p q => vidKeyLT p.1 q.1) :=
      ⟨fun a b hab hba => (vidKeyLT_asymm hab hba).elim⟩
    have heq : entries = entries₂ := List.eq_of_perm_of_sorted hperm h1 h2
    rw [heq]

/-- Witness index for C2: one version 2.0.0 carrying the two target
kinds Lune and Luau (Lune ordered before Luau). -/
def sampleIdxTwoTargets : List (VersionId SemVer × IndexFileEntry) :=
  [(⟨⟨2, 0, 0⟩, .lune⟩, sampleEntry (.lune (some "init") none)),
   (⟨⟨2, 0, 0⟩, .luau⟩, sampleEntry (.luau (some "lib") none))]

/-- Witness for C2: `(Specific 2.0.0, Any)` selects the Lune entry, the
minimal target kind present. -/
theorem any_target_selects_minimal_witness :
    (getPackageVersion sampleIdxTwoTargets (.specific ⟨2, 0, 0⟩) .any).map
      (fun p => p.1.target) = some .lune ∧
    (∃ vid entry ts,
      getPackageVersion sampleIdxTwoTargets (.specific ⟨2, 0, 0⟩) .any =
        some (vid, entry, ts) ∧
      (vid, entry) ∈ sampleIdxTwoTargets ∧ vid.version = ⟨2, 0, 0⟩ ∧
      ∀ q ∈ sampleIdxTwoTargets, q.1.version = ⟨2, 0, 0⟩ →
        vid.target ≤ q.1.target) :=
  ⟨rfl,
   (any_target_selects_minimal sampleIdxTwoTargets ⟨2, 0, 0⟩
     (List.length_pos.mp (by decide))).1⟩

/-- C3: under `(Specific v, Specific k)` an entry is selected only if it
sits at version `v` and its target kind equals `k` exactly; and when no
entry at version `v` has kind `k`, the outcome is not-found — whatever
entries other versions hold, and with no `is_compatible_with` coercion
consulted. -/
theorem specific_target_exact_match {V : Type} [LinearOrder V]
    (entries : List (VersionId V × IndexFileEntry)) (v : V) (k : TargetKind) :
    (∀ vid entry ts,
      getPackageVersion entries (.specific v) (.specific k) =
          some (vid, entry, ts) →
        (vid, entry) ∈ entries ∧ vid.version = v ∧ entry.target.kind = k)
    ∧ ((∀ p ∈ entries, p.1.version = v → p.2.target.kind ≠ k) →
        getPackageVersion entries (.specific v) (.specific k) = none) := by
  constructor
  · intro vid entry ts h
    rw [getPackageVersion_specific_specific] at h
    rcases hfind : (entries.filter fun p => decide (p.1.version = v)).find?
        (fun p => decide (p.2.target.kind = k)) with _ | x
    · rw [hfind] at h
      cases h
    · rw [hfind] at h
      have hx := List.find?_some hfind
      have hxmem := List.mem_of_find?_eq_some hfind
      have hxf := List.mem_filter.mp hxmem
      simp only [Option.map_some', Option.some.injEq, Prod.mk.injEq] at h
      obtain ⟨h1, h2, -⟩ := h
      subst h1
      subst h2
      exact ⟨hxf.1, by simpa using hxf.2, by simpa using hx⟩
  · intro hnone
    rw [getPackageVersion_specific_specific]
    have : (entries.filter fun p => decide (p.1.version = v)).find?
        (fun p => decide (p.2.target.kind = k)) = none := by
      rw [List.find?_eq_none]
      intro x hx
      have hxf := List.mem_filter.mp hx
      simpa using hnone x hxf.1 (by simpa using hxf.2)
    rw [this]
    rfl

/-- Witness index for C3: version 1.0.0 published only for Luau, version
2.0.0 published only for Lune. -/
def sampleIdxTwoVersions : List (VersionId SemVer × IndexFileEntry) :=
  [(⟨⟨1, 0, 0⟩, .luau⟩, sampleEntry (.luau (some "lib") none)),
   (⟨⟨2, 0, 0⟩, .lune⟩, sampleEntry (.lune (some "init") none))]

/-- Witness for C3: `(Specific 1.0.0, Specific Lune)` is not-found even
though version 2.0.0 has a Lune entry and Lune is compatible with the
Luau entry sitting at 1.0.0. -/
theorem specific_target_exact_match_witness :
    getPackageVersion sampleIdxTwoVersions (.specific ⟨1, 0, 0⟩)
        (.specific .lune) = none ∧
    TargetKind.lune.is_compatible_with .luau = true :=
  ⟨(specific_target_exact_match sampleIdxTwoVersions ⟨1, 0, 0⟩ .lune).2
      (by decide),
   by decide⟩

/-! ## The documentation worklist (claim C4) -/

theorem stackVisit_append (l1 l2 : List DocNode) :
    stackVisit (l1 ++ l2) = stackVisit l1 ++ stackVisit l2 := by
  induction l1 with
  | nil => rfl
  | cons d ds ih => simp [stackVisit, ih]

theorem docListVisitOrder_eq_stackVisit_reverse (l : List DocNode) :
    docListVisitOrder l = stackVisit l.reverse := by
  induction l with
  | nil => rfl
  | cons d ds ih =>
    simp [docListVisitOrder, List.reverse_cons, stackVisit_append, ih, stackVisit]

theorem docWorklist_eq_firstPage (docName : String) (w : List DocNode) :
    docWorklist docName w = firstPageHash docName (stackVisit w) := by
  generalize hn : docListSize w = n
  induction n using Nat.strong_induction_on generalizing w with
  | _ n ih =>
    subst hn
    cases w with
    | nil => simp [docWorklist, stackVisit, firstPageHash]
    | cons node rest =>
      cases node with
      | page nm h =>
        rw [docWorklist]
        have hsv : stackVisit (DocNode.page nm h :: rest) =
            DocNode.page nm h :: stackVisit rest := by
          simp [stackVisit, DocNode.visitOrder]
        rw [hsv, firstPageHash]
        by_cases hnm : nm = docName
        · simp [hnm]
        · simp only [if_neg hnm]
          exact ih (docListSize rest)
            (by simp [docListSize, DocNode.size]) rest rfl
      | category nm items =>
        rw [docWorklist]
        have hlt : docListSize (items.reverse ++ rest) <
            docListSize (DocNode.category nm items :: rest) := by
          simp [docListSize, DocNode.size, docListSize_append, docListSize_reverse]
        rw [ih _ hlt (items.reverse ++ rest) rfl]
        have hsv : stackVisit (DocNode.category nm items :: rest) =
            DocNode.category nm items ::
              (docListVisitOrder items ++ stackVisit rest) := by
          simp [stackVisit, DocNode.visitOrder]
        rw [hsv, firstPageHash, stackVisit_append,
          docListVisitOrder_eq_stackVisit_reverse]

theorem firstPageHash_eq_none_iff (docName : String) (l : List DocNode) :
    firstPageHash docName l = none ↔
      ∀ h, DocNode.page docName h ∉ l := by
  induction l with
  | nil => simp [firstPageHash]
  | cons d rest ih =>
    cases d with
    | page nm h =>
      by_cases hnm : nm = docName
      · subst hnm
        apply iff_of_false
        · simp [firstPageHash]
        · exact fun hall => hall h (List.mem_cons_self _ _)
      · rw [firstPageHash, if_neg hnm, ih]
        constructor
        · intro hall h' hmem
          rcases List.mem_cons.mp hmem with he | hmem
          · injection he with he1 he2
            exact hnm he1.symm
          · exact hall h' hmem
        · intro hall h' hmem
          exact hall h' (List.mem_cons_of_mem _ hmem)
    | category nm items =>
      rw [firstPageHash, ih]
      constructor
      · intro hall h' hmem
        rcases List.mem_cons.mp hmem with he | hmem
        · exact DocNode.noConfusion he
        · exact hall h' hmem
      · intro hall h' hmem
        exact hall h' (List.mem_cons_of_mem _ hmem)

theorem docListPages_append (l1 l2 : List DocNode) :
    docListPages (l1 ++ l2) = docListPages l1 ++ docListPages l2 := by
  induction l1 with
  | nil => rfl
  | cons d ds ih => simp [docListPages, ih]

theorem mem_docListPages_reverse (p : String × String) (l : List DocNode) :
    p ∈ docListPages l.reverse ↔ p ∈ docListPages l := by
  induction l with
  | nil => simp
  | cons d ds ih =>
    simp [List.reverse_cons, docListPages_append, docListPages, ih]
    tauto

theorem mem_stackVisit_page_iff (n h : String) (l : List DocNode) :
    DocNode.page n h ∈ stackVisit l ↔ (n, h) ∈ docListPages l := by
  generalize hs : docListSize l = N
  induction N using Nat.strong_induction_on generalizing l with
  | _ N ih =>
    subst hs
    cases l with
    | nil => simp [stackVisit, docListPages]
    | cons d rest =>
      cases d with
      | page nm hh =>
        have hsv : stackVisit (DocNode.page nm hh :: rest) =
            DocNode.page nm hh :: stackVisit rest := by
          simp [stackVisit, DocNode.visitOrder]
        have hrest := ih (docListSize rest)
          (by simp [docListSize, DocNode.size]) rest rfl
        rw [hsv]
        simp [docListPages, DocNode.pages, hrest]
      | category nm items =>
        have hsv : stackVisit (DocNode.category nm items :: rest) =
            DocNode.category nm items ::
              (docListVisitOrder items ++ stackVisit rest) := by
          simp [stackVisit, DocNode.visitOrder]
        have hitems := ih (docListSize items.reverse)
          (by simp [docListSize, DocNode.size, docListSize_reverse]
              omega)
          items.reverse rfl
        have hrest := ih (docListSize rest)
          (by simp [docListSize, DocNode.size])
          rest rfl
        rw [hsv, docListVisitOrder_eq_stackVisit_reverse]
        simp [docListPages, DocNode.pages, hitems, hrest,
          mem_docListPages_reverse]

/-- C4: the documentation lookup is the stack worklist search with the
pinned depth-first last-pushed-first order: its result is the hash of
the first page named `docName` in that visit order, and it is not-found
exactly when no page of the tree bears that name. On the spec's example
tree the nested page's hash H2 wins over the top-level page's H1. -/
theorem docSearch_characterization (docName : String) (docs : List DocNode) :
    (docSearch docName docs =
      firstPageHash docName (docListVisitOrder docs))
    ∧ (docSearch docName docs = none ↔
        ∀ h, (docName, h) ∉ docListPages docs)
    ∧ docSearch "intro"
        [.category "guides"
          [.page "intro" "H1", .category "advanced" [.page "intro" "H2"]]] =
        some "H2" := by
  refine ⟨?_, ?_, ?_⟩
  · rw [docSearch, docWorklist_eq_firstPage,
      docListVisitOrder_eq_stackVisit_reverse]
  · rw [docSearch, docWorklist_eq_firstPage, firstPageHash_eq_none_iff]
    constructor
    · intro hall h hmem
      exact hall h ((mem_stackVisit_page_iff docName h docs.reverse).mpr
        ((mem_docListPages_reverse _ docs).mpr hmem))
    · intro hall h hmem
      exact hall h ((mem_docListPages_reverse _ docs).mp
        ((mem_stackVisit_page_iff docName h docs.reverse).mp hmem))
  · simp [docSearch, docWorklist]

/-- Witness for C4 at the spec's example tree: both pages are named
`intro`; the pinned order hands back the nested page's hash H2. -/
theorem docSearch_characterization_witness :
    docSearch "intro"
      [.category "guides"
        [.page "intro" "H1", .category "advanced" [.page "intro" "H2"]]] =
      some "H2" :=
  (docSearch_characterization "intro"
    [.category "guides"
      [.page "intro" "H1", .category "advanced" [.page "intro" "H2"]]]).2.2

/-! ## Content negotiation (claim C10) -/

theorem handlePackageVersion_resolved {V : Type} [LinearOrder V]
    (entries : List (VersionId V × IndexFileEntry))
    (vreq : VersionRequest V) (treq : TargetRequest)
    (accept : Option (List Char)) (vid : VersionId V)
    (entry : IndexFileEntry) (ts : List TargetInfo)
    (hres : getPackageVersion entries vreq treq = some (vid, entry, ts)) :
    handlePackageVersion (some entries) vreq treq none accept =
      match negotiateAccept accept with
      | some true => .readme vid
      | some false => .package vid
      | none => .metadata vid entry ts := by
  simp only [handlePackageVersion, hres]

/-- C10: the Accept header is lowercased before comparison, so matching
is case-insensitive — any two values with the same lowercase form give
the same response; `TEXT/PLAIN` selects the readme, a mixed-case
`application/octet-stream` selects the packaged artifact, and an absent
or unrecognized value yields the JSON metadata response. -/
theorem accept_header_case_insensitive {V : Type} [LinearOrder V]
    (entries : List (VersionId V × IndexFileEntry))
    (vreq : VersionRequest V) (treq : TargetRequest)
    (vid : VersionId V) (entry : IndexFileEntry) (ts : List TargetInfo)
    (hres : getPackageVersion entries vreq treq = some (vid, entry, ts)) :
    (∀ s t : List Char, s.map Char.toLower = t.map Char.toLower →
      handlePackageVersion (some entries) vreq treq none (some s) =
        handlePackageVersion (some entries) vreq treq none (some t))
    ∧ handlePackageVersion (some entries) vreq treq none
        (some "TEXT/PLAIN".data) = .readme vid
    ∧ handlePackageVersion (some entries) vreq treq none
        (some "Application/Octet-Stream".data) = .package vid
    ∧ handlePackageVersion (some entries) vreq treq none none =
        .metadata vid entry ts
    ∧ ∀ s : List Char, s.map Char.toLower ≠ "text/plain".data →
        s.map Char.toLower ≠ "application/octet-stream".data →
        handlePackageVersion (some entries) vreq treq none (some s) =
          .metadata vid entry ts := by
  refine ⟨?_, ?_, ?_, ?_, ?_⟩
  · intro s t hst
    rw [handlePackageVersion_resolved _ _ _ _ _ _ _ hres,
      handlePackageVersion_resolved _ _ _ _ _ _ _ hres]
    have : negotiateAccept (some s) = negotiateAccept (some t) := by
      simp only [negotiateAccept, hst]
    rw [this]
  · rw [handlePackageVersion_resolved _ _ _ _ _ _ _ hres]
    have : negotiateAccept (some "TEXT/PLAIN".data) = some true := by decide
    rw [this]
  · rw [handlePackageVersion_resolved _ _ _ _ _ _ _ hres]
    have : negotiateAccept (some "Application/Octet-Stream".data) =
        some false := by decide
    rw [this]
  · rw [handlePackageVersion_resolved _ _ _ _ _ _ _ hres]
    rfl
  · intro s h1 h2
    rw [handlePackageVersion_resolved _ _ _ _ _ _ _ hres]
    have : negotiateAccept (some s) = none := by
      simp only [negotiateAccept, if_neg h1, if_neg h2]
    rw [this]

/-- Witness index for C10: a single entry at version 1.0.0. -/
def sampleIdxOne : List (VersionId SemVer × IndexFileEntry) :=
  [(⟨⟨1, 0, 0⟩, .luau⟩, sampleEntry (.luau (some "lib") none))]

/-- Witness for C10 at a concrete resolved query: uppercase and
lowercase `text/plain` both select the readme. -/
theorem accept_header_case_insensitive_witness :
    handlePackageVersion (some sampleIdxOne) (.specific ⟨1, 0, 0⟩) .any none
        (some "TEXT/PLAIN".data) =
      .readme ⟨⟨1, 0, 0⟩, .luau⟩ ∧
    handlePackageVersion (some sampleIdxOne) (.specific ⟨1, 0, 0⟩) .any none
        (some "TEXT/PLAIN".data) =
      handlePackageVersion (some sampleIdxOne) (.specific ⟨1, 0, 0⟩) .any none
        (some "text/plain".data) :=
  ⟨(accept_header_case_insensitive sampleIdxOne (.specific ⟨1, 0, 0⟩) .any
      ⟨⟨1, 0, 0⟩, .luau⟩ (sampleEntry (.luau (some "lib") none))
      [(Target.luau (some "lib") none).toTargetInfo] (by rfl)).2.1,
   (accept_header_case_insensitive sampleIdxOne (.specific ⟨1, 0, 0⟩) .any
      ⟨⟨1, 0, 0⟩, .luau⟩ (sampleEntry (.luau (some "lib") none))
      [(Target.luau (some "lib") none).toTargetInfo] (by rfl)).1
      "TEXT/PLAIN".data "text/plain".data (by decide)⟩

end Pesde
